import Mathlib

/-!
Verification of `goembed.go` (stapelberg/goembed), a build-time generator that
reads bytes from stdin and emits a Go source file embedding those bytes as a
`[]byte("…")` literal, optionally gzip-compressed.

Bytes are modelled as `Nat` (with explicit `< 256` bounds where relevant);
byte sequences as `List Nat`.  The streaming `writer` adapter over stdout is
modelled as explicit state passing over an abstract fallible sink.

Note on `io.Copy(&writer{w: os.Stdout}, bytes.NewReader(raw))`: `bytes.Reader`
implements `io.WriterTo`, so `io.Copy` forwards the whole buffer in a single
`writer.Write` call; the model therefore applies the write loop to the whole
payload at once.
-/

/-- True when `b` is a UTF-8 continuation byte (`0x80 ≤ b ≤ 0xBF`), the `locb`/
`hicb` bounds of Go's `unicode/utf8`. -/
def utf8Cont (b : Nat) : Bool := decide (0x80 ≤ b ∧ b ≤ 0xBF)

/-- Accept range for the second byte of a 3-byte sequence, per Go's
`unicode/utf8` accept-range table (`0xE0` excludes overlongs, `0xED` excludes
surrogates). -/
def utf8Accept3 (b0 b1 : Nat) : Bool :=
  if b0 = 0xE0 then decide (0xA0 ≤ b1 ∧ b1 ≤ 0xBF)
  else if b0 = 0xED then decide (0x80 ≤ b1 ∧ b1 ≤ 0x9F)
  else utf8Cont b1

/-- Accept range for the second byte of a 4-byte sequence, per Go's
`unicode/utf8` accept-range table (`0xF0` excludes overlongs, `0xF4` caps at
`U+10FFFF`). -/
def utf8Accept4 (b0 b1 : Nat) : Bool :=
  if b0 = 0xF0 then decide (0x90 ≤ b1 ∧ b1 ≤ 0xBF)
  else if b0 = 0xF4 then decide (0x80 ≤ b1 ∧ b1 ≤ 0x8F)
  else utf8Cont b1

/-- Model of Go `unicode/utf8.DecodeRune`: returns the decoded code point and
its width in bytes.  On empty input it returns `(RuneError, 0)`; on an invalid,
incomplete or short encoding it returns `(RuneError, 1)`, where
`RuneError = 0xFFFD`.  First-byte classes follow Go's `first` table: ASCII
`< 0x80`; `0x80`–`0xC1` invalid; two-byte `0xC2`–`0xDF`; three-byte
`0xE0`–`0xEF`; four-byte `0xF0`–`0xF4`; `0xF5`–`0xFF` invalid. -/
def decodeRune : List Nat → Nat × Nat
  | [] => (0xFFFD, 0)
  | b0 :: rest =>
    if b0 < 0x80 then (b0, 1)
    else if b0 < 0xC2 then (0xFFFD, 1)
    else if b0 < 0xE0 then
      match rest with
      | b1 :: _ =>
        if utf8Cont b1 then ((b0 % 0x20) * 0x40 + b1 % 0x40, 2) else (0xFFFD, 1)
      | [] => (0xFFFD, 1)
    else if b0 < 0xF0 then
      match rest with
      | b1 :: b2 :: _ =>
        if utf8Accept3 b0 b1 then
          if utf8Cont b2 then
            ((b0 % 0x10) * 0x1000 + (b1 % 0x40) * 0x40 + b2 % 0x40, 3)
          else (0xFFFD, 1)
        else (0xFFFD, 1)
      | _ => (0xFFFD, 1)
    else if b0 < 0xF5 then
      match rest with
      | b1 :: b2 :: b3 :: _ =>
        if utf8Accept4 b0 b1 then
          if utf8Cont b2 then
            if utf8Cont b3 then
              ((b0 % 0x8) * 0x40000 + (b1 % 0x40) * 0x1000 + (b2 % 0x40) * 0x40
                + b3 % 0x40, 4)
            else (0xFFFD, 1)
          else (0xFFFD, 1)
        else (0xFFFD, 1)
      | _ => (0xFFFD, 1)
    else (0xFFFD, 1)

/-- Lowercase hex digit character for a nibble, as produced by Go's `%02x`. -/
def hexDigit (n : Nat) : Nat := if n < 10 then 48 + n else 87 + n

/-- The four characters written by `fmt.Fprintf(w.w, "\\x%02x", b)` for a byte
`b < 256`: backslash, `x`, and two lowercase hex digits. -/
def hexEsc (b : Nat) : List Nat := [92, 120, hexDigit (b / 16), hexDigit (b % 16)]

/-- Fuel-indexed body of the loop of `writer.Write` (goembed.go lines 65–105),
restricted to the text it emits (the underlying writes are collected in order).
One fuel unit is spent per loop iteration; since every iteration consumes at
least one input byte, fuel `= length of the input` is always enough (see
`encodeF_congr`).  Branches, in source order: `\\`, `"`, newline, NUL, then
the `utf8.DecodeRune` passthrough for valid non-BOM runes, else a `\xHH`
escape of the single byte. -/
def encodeF : Nat → List Nat → List Nat
  | 0, _ => []
  | _ + 1, [] => []
  | fuel + 1, b :: rest =>
    if b = 92 then 92 :: 92 :: encodeF fuel rest
    else if b = 34 then 92 :: 34 :: encodeF fuel rest
    else if b = 10 then 92 :: 110 :: encodeF fuel rest
    else if b = 0 then 92 :: 120 :: 48 :: 48 :: encodeF fuel rest
    else
      let q := decodeRune (b :: rest)
      if q.1 ≠ 0xFFFD ∧ q.1 ≠ 0xFEFF then
        (b :: rest).take q.2 ++ encodeF fuel ((b :: rest).drop q.2)
      else
        hexEsc b ++ encodeF fuel rest

/-- The text `writer.Write` emits for a byte sequence: the body of the
generated Go string literal. -/
def encode (l : List Nat) : List Nat := encodeF l.length l

example : decodeRune [0xE2, 0x82, 0xAC] = (0x20AC, 3) := by decide
example : decodeRune [0xEF, 0xBF, 0xBD] = (0xFFFD, 3) := by decide
example : decodeRune [0xEF, 0xBB, 0xBF] = (0xFEFF, 3) := by decide
example : decodeRune [0x80] = (0xFFFD, 1) := by decide
example : decodeRune [0xC0, 0x80] = (0xFFFD, 1) := by decide
example : decodeRune [0xED, 0xA0, 0x80] = (0xFFFD, 1) := by decide
example : decodeRune [0xF4, 0x90, 0x80, 0x80] = (0xFFFD, 1) := by decide
example : decodeRune [0xF0, 0x9F, 0x98, 0x80] = (0x1F600, 4) := by decide

example : encode [104, 105] = [104, 105] := by decide
example : encode [0] = [92, 120, 48, 48] := by decide
example : encode [10, 34, 92] = [92, 110, 92, 34, 92, 92] := by decide
example : encode [0xE2, 0x82, 0xAC] = [0xE2, 0x82, 0xAC] := by decide
example : encode [0xEF, 0xBB, 0xBF] =
    [92, 120, 101, 102, 92, 120, 98, 98, 92, 120, 98, 102] := by decide
example : encode [0xEF, 0xBF, 0xBD] =
    [92, 120, 101, 102, 92, 120, 98, 102, 92, 120, 98, 100] := by decide
example : encode [0xFF] = [92, 120, 102, 102] := by decide

/-- Value of a hex digit character, or `none` when `c` is not one. -/
def unhex (c : Nat) : Option Nat :=
  if 48 ≤ c ∧ c ≤ 57 then some (c - 48)
  else if 97 ≤ c ∧ c ≤ 102 then some (c - 87)
  else if 65 ≤ c ∧ c ≤ 70 then some (c - 55)
  else none

/-- Value of an octal digit character, or `none` when `c` is not one. -/
def octDigit (c : Nat) : Option Nat :=
  if 48 ≤ c ∧ c ≤ 55 then some (c - 48) else none

/-- Standard UTF-8 encoding of a code point, used for the value contributed by
the `\u`/`\U` escapes of a Go string literal. -/
def utf8Encode (r : Nat) : List Nat :=
  if r < 0x80 then [r]
  else if r < 0x800 then [0xC0 + r / 0x40, 0x80 + r % 0x40]
  else if r < 0x10000 then
    [0xE0 + r / 0x1000, 0x80 + (r / 0x40) % 0x40, 0x80 + r % 0x40]
  else
    [0xF0 + r / 0x40000, 0x80 + (r / 0x1000) % 0x40, 0x80 + (r / 0x40) % 0x40,
      0x80 + r % 0x40]

/-- True when `v` is a code point a `\u`/`\U` escape may denote: at most
`U+10FFFF` and not a surrogate half. -/
def legalRune (v : Nat) : Bool := decide (v < 0xD800 ∨ (0xE000 ≤ v ∧ v < 0x110000))

/-- Reads exactly `k` digits (per `dig`) in base `base` from the front of a
list, folding them onto the accumulator `acc`; `none` when fewer than `k`
digit characters are available. -/
def readDigits (dig : Nat → Option Nat) (base : Nat) :
    Nat → Nat → List Nat → Option (Nat × List Nat)
  | 0, acc, r => some (acc, r)
  | k + 1, acc, r =>
    match r with
    | [] => none
    | c :: rr =>
      match dig c with
      | some d => readDigits dig base k (acc * base + d) rr
      | none => none

/-- Decodes one Go string-literal escape given the text after the backslash:
the bytes the escape denotes and the remaining text, or `none` for a
malformed escape.  Escapes per
https://golang.org/ref/spec#String_literals: `\a \b \f \n \r \t \v \\ \"`,
`\xHH`, `\uHHHH` and `\UHHHHHHHH` (legal code points, contributing their
UTF-8 encoding), and `\OOO` (three octal digits, value below 256).  `\'` is
legal only in rune literals and is rejected. -/
def escDecode (r : List Nat) : Option (List Nat × List Nat) :=
  match r with
  | [] => none
  | e :: rr =>
    if e = 97 then some ([7], rr)
    else if e = 98 then some ([8], rr)
    else if e = 102 then some ([12], rr)
    else if e = 110 then some ([10], rr)
    else if e = 114 then some ([13], rr)
    else if e = 116 then some ([9], rr)
    else if e = 118 then some ([11], rr)
    else if e = 92 then some ([92], rr)
    else if e = 34 then some ([34], rr)
    else if e = 120 then
      match readDigits unhex 16 2 0 rr with
      | some (v, rest) => some ([v], rest)
      | none => none
    else if e = 117 then
      match readDigits unhex 16 4 0 rr with
      | some (v, rest) => if legalRune v then some (utf8Encode v, rest) else none
      | none => none
    else if e = 85 then
      match readDigits unhex 16 8 0 rr with
      | some (v, rest) => if legalRune v then some (utf8Encode v, rest) else none
      | none => none
    else
      match readDigits octDigit 8 3 0 (e :: rr) with
      | some (v, rest) => if v < 256 then some ([v], rest) else none
      | none => none

/-- Fuel-indexed byte-level model of Go interpreted-string-literal semantics
applied to a literal body: `none` when the body is not a legal
interpreted-literal body (a raw newline, a raw unescaped `"`, or a malformed
escape), otherwise the denoted byte sequence.  One fuel unit is spent per
character or escape, so fuel `= length of the body` always suffices
(`goDecodeF_eq`).  Unescaped characters contribute their own bytes; at the
byte level this treats each unescaped byte individually, which agrees with
the rune-level Go semantics on valid-UTF-8 bodies such as the encoder's
output. -/
def goDecodeF : Nat → List Nat → Option (List Nat)
  | 0, l => match l with | [] => some [] | _ :: _ => none
  | fuel + 1, l =>
    match l with
    | [] => some []
    | c :: r =>
      if c = 92 then
        match escDecode r with
        | some (v, rest) => (goDecodeF fuel rest).map (fun t => v ++ t)
        | none => none
      else if c = 34 then none
      else if c = 10 then none
      else (goDecodeF fuel r).map (fun t => c :: t)

/-- Go interpreted-string-literal decoding of a literal body. -/
def goDecode (l : List Nat) : Option (List Nat) := goDecodeF l.length l

example : goDecode [104, 105] = some [104, 105] := by decide
example : goDecode [92, 110] = some [10] := by decide
example : goDecode [92, 120, 48, 48] = some [0] := by decide
example : goDecode [92, 120, 101, 102] = some [0xEF] := by decide
example : goDecode [34] = none := by decide
example : goDecode [10] = none := by decide
example : goDecode [92] = none := by decide
example : goDecode [92, 39] = none := by decide
example : goDecode [92, 49, 48, 48] = some [64] := by decide
example : goDecode [92, 117, 50, 48, 97, 99] = some [0xE2, 0x82, 0xAC] := by decide
example : goDecode [92, 117, 100, 56, 48, 48] = none := by decide
example : goDecode (encode [0, 10, 34, 92, 0xE2, 0x82, 0xAC, 0xFF]) =
    some [0, 10, 34, 92, 0xE2, 0x82, 0xAC, 0xFF] := by decide

/-- Fuel-indexed model of the loop of `writer.Write` over an abstract
underlying writer `wr : σ → List Nat → σ × Bool` (`false` = the write
returned an error).  Returns the final sink state, the remaining (local)
`data` slice when the loop exits, and `true` iff `err == nil`.  Mirrors the
source: on a failing write of an escape the single input byte has already
been consumed (`data = data[1:]` runs before the loop condition is
re-checked); on a failing passthrough write the whole rune unit has been
consumed (`data = data[size:]` precedes `continue`). -/
def writeLoopF {σ : Type} (wr : σ → List Nat → σ × Bool) :
    Nat → σ → List Nat → σ × List Nat × Bool
  | 0, s, data => (s, data, true)
  | _ + 1, s, [] => (s, [], true)
  | fuel + 1, s, b :: rest =>
    if b = 92 then
      let p := wr s [92, 92]
      if p.2 then writeLoopF wr fuel p.1 rest else (p.1, rest, false)
    else if b = 34 then
      let p := wr s [92, 34]
      if p.2 then writeLoopF wr fuel p.1 rest else (p.1, rest, false)
    else if b = 10 then
      let p := wr s [92, 110]
      if p.2 then writeLoopF wr fuel p.1 rest else (p.1, rest, false)
    else if b = 0 then
      let p := wr s [92, 120, 48, 48]
      if p.2 then writeLoopF wr fuel p.1 rest else (p.1, rest, false)
    else
      let q := decodeRune (b :: rest)
      if q.1 ≠ 0xFFFD ∧ q.1 ≠ 0xFEFF then
        let p := wr s ((b :: rest).take q.2)
        if p.2 then writeLoopF wr fuel p.1 ((b :: rest).drop q.2)
        else (p.1, (b :: rest).drop q.2, false)
      else
        let p := wr s (hexEsc b)
        if p.2 then writeLoopF wr fuel p.1 rest else (p.1, rest, false)

/-- Model of `writer.Write` (goembed.go lines 65–105): final sink state,
returned count `n - len(data)`, and `true` iff the returned error is nil. -/
def writerWrite {σ : Type} (wr : σ → List Nat → σ × Bool) (s : σ)
    (data : List Nat) : σ × Nat × Bool :=
  let z := writeLoopF wr data.length s data
  (z.1, data.length - z.2.1.length, z.2.2)

/-- UTF-8 bytes of an ASCII Lean string constant, used to transcribe the fixed
text fragments printed by `main`. -/
def strBytes (s : String) : List Nat := s.data.map Char.toNat

/-- Text of `fmt.Printf("package %s\n\n", *packageFlag)`. -/
def headerText (pkg : List Nat) : List Nat :=
  strBytes "package " ++ pkg ++ strBytes "\n\n"

/-- Text of `fmt.Printf("var %s = []byte(\"", *varFlag)` (the non-gzip
declaration opener). -/
def plainOpenText (v : List Nat) : List Nat :=
  strBytes "var " ++ v ++ strBytes " = []byte(\x22"

/-- Import block of the `gzipPrologue` template (goembed.go lines 107–113),
up to and including the blank line that precedes `func init()`. -/
def importsText : List Nat :=
  strBytes "\nimport (\n\t\x22bytes\x22\n\t\x22compress/gzip\x22\n\t\x22io/ioutil\x22\n)\n\n"

/-- The `func init()` block of the `gzipPrologue` template (goembed.go lines
114–125), with `{{.}}` instantiated to the variable name `v`. -/
def initFuncText (v : List Nat) : List Nat :=
  strBytes "func init() \x7b\n\tr, err := gzip.NewReader(bytes.NewReader(" ++ v ++
  strBytes "_gzip))\n\tif err != nil \x7b\n\t\tpanic(err)\n\t\x7d\n\tdefer r.Close()\n\t" ++ v ++
  strBytes ", err = ioutil.ReadAll(r)\n\tif err != nil \x7b\n\t\tpanic(err)\n\t\x7d\n\x7d\n"

/-- Full text written by `gzipPrologue.Execute(os.Stdout, *varFlag)`: the
template body with `{{.}}` replaced by the variable name. -/
def prologueText (v : List Nat) : List Nat := importsText ++ initFuncText v

/-- Text of `fmt.Printf("var %s []byte // set in init\n\n", *varFlag)`. -/
def uninitText (v : List Nat) : List Nat :=
  strBytes "var " ++ v ++ strBytes " []byte // set in init\n\n"

/-- Text of `fmt.Printf("var %s_gzip = []byte(\"", *varFlag)`. -/
def gzipOpenText (v : List Nat) : List Nat :=
  strBytes "var " ++ v ++ strBytes "_gzip = []byte(\x22"

/-- Text of `fmt.Println("\")")`. -/
def closeText : List Nat := strBytes "\x22)\n"

/-- Model of `main` (goembed.go lines 23–59) from the point stdin has been
read: `raw` is the stdin bytes, `compress` the gzip compressor at
`gzip.BestCompression` held abstract, `wr` the stdout sink.  Returns the final
sink state and the process exit status.  Faithful to the source's error
handling: the errors of `fmt.Printf`, `io.Copy` and `fmt.Println` are
discarded, only a failing `gzipPrologue.Execute` reaches `log.Fatal`
(exit status 1); the in-memory `gzw.Write`/`gzw.Close` cannot fail. -/
def mainRun {σ : Type} (wr : σ → List Nat → σ × Bool) (s0 : σ)
    (pkg v : List Nat) (useGzip : Bool) (compress : List Nat → List Nat)
    (raw : List Nat) : σ × Nat :=
  let h := wr s0 (headerText pkg)
  if useGzip then
    let gz := compress raw
    let t := wr h.1 (prologueText v)
    if t.2 then
      let u := wr t.1 (uninitText v)
      let g := wr u.1 (gzipOpenText v)
      let z := writerWrite wr g.1 gz
      let c := wr z.1 closeText
      (c.1, 0)
    else (t.1, 1)
  else
    let o := wr h.1 (plainOpenText v)
    let z := writerWrite wr o.1 raw
    let c := wr z.1 closeText
    (c.1, 0)

/-- Infallible sink that accumulates everything written, in order. -/
def appendSink : List Nat → List Nat → List Nat × Bool :=
  fun s c => (s ++ c, true)

/-- The complete stdout text of a run of the generator. -/
def mainOutput (pkg v : List Nat) (useGzip : Bool)
    (compress : List Nat → List Nat) (raw : List Nat) : List Nat :=
  (mainRun appendSink [] pkg v useGzip compress raw).1

/-- Payload selection of `main`: the byte sequence handed to the literal
encoder is the compressor's output when `-gzip` is set (line 54, `raw = gz`),
the raw input otherwise. -/
def selectPayload (compress : List Nat → List Nat) (useGzip : Bool)
    (raw : List Nat) : List Nat :=
  if useGzip then compress raw else raw

/-- True when `t` is, in its entirety, a standard UTF-8 encoding of one code
point (spec-side notion of a "valid encoding unit", independent of the
encoder). -/
def specValidUnit (t : List Nat) : Bool :=
  match t with
  | [b0] => decide (b0 < 0x80)
  | [b0, b1] => decide (0xC2 ≤ b0 ∧ b0 < 0xE0) && utf8Cont b1
  | [b0, b1, b2] =>
    decide (0xE0 ≤ b0 ∧ b0 < 0xF0) && utf8Accept3 b0 b1 && utf8Cont b2
  | [b0, b1, b2, b3] =>
    decide (0xF0 ≤ b0 ∧ b0 < 0xF5) && utf8Accept4 b0 b1 && utf8Cont b2 &&
      utf8Cont b3
  | _ => false

/-- The code point a complete standard UTF-8 unit encodes (0 otherwise). -/
def unitRune (t : List Nat) : Nat :=
  match t with
  | [b0] => b0
  | [b0, b1] => (b0 % 0x20) * 0x40 + b1 % 0x40
  | [b0, b1, b2] => (b0 % 0x10) * 0x1000 + (b1 % 0x40) * 0x40 + b2 % 0x40
  | [b0, b1, b2, b3] =>
    (b0 % 0x8) * 0x40000 + (b1 % 0x40) * 0x1000 + (b2 % 0x40) * 0x40 + b3 % 0x40
  | _ => 0

example : strBytes "var " = [118, 97, 114, 32] := by decide
example : headerText [112] = [112, 97, 99, 107, 97, 103, 101, 32, 112, 10, 10] := by
  decide
example : mainOutput [112] [118] false id [104, 105] =
    strBytes "package p\n\nvar v = []byte(\x22hi\x22)\n" := by decide
example :
    (writerWrite (fun (s : Nat) (_ : List Nat) => (s + 1, false)) 0 [104, 105]).2 =
      (1, false) := by decide

lemma decodeRune_snd_pos (b : Nat) (rest : List Nat) :
    1 ≤ (decodeRune (b :: rest)).2 := by
  rcases rest with _ | ⟨b1, _ | ⟨b2, _ | ⟨b3, t⟩⟩⟩ <;>
    simp only [decodeRune] <;> split_ifs <;> simp

lemma decodeRune_snd_le (b : Nat) (rest : List Nat) :
    (decodeRune (b :: rest)).2 ≤ 4 := by
  rcases rest with _ | ⟨b1, _ | ⟨b2, _ | ⟨b3, t⟩⟩⟩ <;>
    simp only [decodeRune] <;> split_ifs <;> simp

lemma encodeF_congr : ∀ (fuel fuel' : Nat) (l : List Nat),
    l.length ≤ fuel → l.length ≤ fuel' → encodeF fuel l = encodeF fuel' l := by
  intro fuel
  induction fuel with
  | zero =>
    intro fuel' l hl _
    have hnil : l = [] := List.length_eq_zero.mp (Nat.le_zero.mp hl)
    subst hnil
    cases fuel' <;> rfl
  | succ fuel ih =>
    intro fuel' l hl hl'
    cases l with
    | nil => cases fuel' <;> rfl
    | cons b rest =>
      cases fuel' with
      | zero => simp at hl'
      | succ fuel' =>
        have hr : rest.length ≤ fuel := by simpa using hl
        have hr' : rest.length ≤ fuel' := by simpa using hl'
        have hpos := decodeRune_snd_pos b rest
        have hd : ((b :: rest).drop (decodeRune (b :: rest)).2).length ≤ fuel := by
          simp only [List.length_drop, List.length_cons]
          omega
        have hd' : ((b :: rest).drop (decodeRune (b :: rest)).2).length ≤ fuel' := by
          simp only [List.length_drop, List.length_cons]
          omega
        simp only [encodeF]
        split_ifs <;>
          simp [ih fuel' rest hr hr',
            ih fuel' ((b :: rest).drop (decodeRune (b :: rest)).2) hd hd']

lemma encode_eqF (fuel : Nat) (l : List Nat) (h : l.length ≤ fuel) :
    encode l = encodeF fuel l :=
  encodeF_congr l.length fuel l le_rfl h

lemma encode_nil : encode [] = [] := rfl

lemma encode_cons_backslash (rest : List Nat) :
    encode (92 :: rest) = 92 :: 92 :: encode rest := by
  simp [encode, encodeF]

lemma encode_cons_quote (rest : List Nat) :
    encode (34 :: rest) = 92 :: 34 :: encode rest := by
  simp [encode, encodeF]

lemma encode_cons_newline (rest : List Nat) :
    encode (10 :: rest) = 92 :: 110 :: encode rest := by
  simp [encode, encodeF]

lemma encode_cons_nul (rest : List Nat) :
    encode (0 :: rest) = 92 :: 120 :: 48 :: 48 :: encode rest := by
  simp [encode, encodeF]

lemma encode_cons_valid {b : Nat} {rest : List Nat} {r s : Nat}
    (h : decodeRune (b :: rest) = (r, s))
    (hb92 : b ≠ 92) (hb34 : b ≠ 34) (hb10 : b ≠ 10) (hb0 : b ≠ 0)
    (hr1 : r ≠ 0xFFFD) (hr2 : r ≠ 0xFEFF) :
    encode (b :: rest) = (b :: rest).take s ++ encode ((b :: rest).drop s) := by
  have hpos := decodeRune_snd_pos b rest
  rw [h] at hpos
  have hd : ((b :: rest).drop s).length ≤ rest.length := by
    simp only [List.length_drop, List.length_cons]
    omega
  rw [show encode (b :: rest) = encodeF (rest.length + 1) (b :: rest) from rfl]
  simp only [encodeF, if_neg hb92, if_neg hb34, if_neg hb10, if_neg hb0, h]
  rw [if_pos ⟨hr1, hr2⟩]
  rw [← encode_eqF rest.length _ hd]

lemma encode_cons_invalid {b : Nat} {rest : List Nat} {r s : Nat}
    (h : decodeRune (b :: rest) = (r, s))
    (hb92 : b ≠ 92) (hb34 : b ≠ 34) (hb10 : b ≠ 10) (hb0 : b ≠ 0)
    (hr : r = 0xFFFD ∨ r = 0xFEFF) :
    encode (b :: rest) = hexEsc b ++ encode rest := by
  rw [show encode (b :: rest) = encodeF (rest.length + 1) (b :: rest) from rfl]
  simp only [encodeF, if_neg hb92, if_neg hb34, if_neg hb10, if_neg hb0, h]
  rw [if_neg (by rcases hr with h | h <;> simp [h]), ← encode_eqF rest.length rest le_rfl]

lemma decodeRune_shape {b : Nat} {rest : List Nat} {r s : Nat}
    (h : decodeRune (b :: rest) = (r, s)) (hr : r ≠ 0xFFFD) :
    (s = 1 ∧ b < 0x80 ∧ r = b) ∨
    (∃ b1 t, rest = b1 :: t ∧ s = 2 ∧ 0xC2 ≤ b ∧ b < 0xE0 ∧ utf8Cont b1 = true ∧
      r = (b % 0x20) * 0x40 + b1 % 0x40) ∨
    (∃ b1 b2 t, rest = b1 :: b2 :: t ∧ s = 3 ∧ 0xE0 ≤ b ∧ b < 0xF0 ∧
      utf8Accept3 b b1 = true ∧ utf8Cont b2 = true ∧
      r = (b % 0x10) * 0x1000 + (b1 % 0x40) * 0x40 + b2 % 0x40) ∨
    (∃ b1 b2 b3 t, rest = b1 :: b2 :: b3 :: t ∧ s = 4 ∧ 0xF0 ≤ b ∧ b < 0xF5 ∧
      utf8Accept4 b b1 = true ∧ utf8Cont b2 = true ∧ utf8Cont b3 = true ∧
      r = (b % 0x8) * 0x40000 + (b1 % 0x40) * 0x1000 + (b2 % 0x40) * 0x40 +
        b3 % 0x40) := by
  rcases rest with _ | ⟨b1, _ | ⟨b2, _ | ⟨b3, t⟩⟩⟩ <;>
    (simp only [decodeRune] at h
     split_ifs at h <;> (injection h with h1 h2; subst h1; subst h2) <;>
       first
         | exact absurd rfl hr
         | (left; exact ⟨rfl, by omega, rfl⟩)
         | (right; left; exact ⟨_, _, rfl, rfl, by omega, by omega, by assumption, rfl⟩)
         | (right; right; left;
             exact ⟨_, _, _, rfl, rfl, by omega, by omega, by assumption,
               by assumption, rfl⟩)
         | (right; right; right;
             exact ⟨_, _, _, _, rfl, rfl, by omega, by omega, by assumption,
               by assumption, by assumption, rfl⟩))

lemma utf8Accept3_cont {b0 b1 : Nat} (h : utf8Accept3 b0 b1 = true) :
    0x80 ≤ b1 ∧ b1 ≤ 0xBF := by
  unfold utf8Accept3 utf8Cont at h
  split_ifs at h <;> simp at h <;> omega

lemma utf8Accept4_cont {b0 b1 : Nat} (h : utf8Accept4 b0 b1 = true) :
    0x80 ≤ b1 ∧ b1 ≤ 0xBF := by
  unfold utf8Accept4 utf8Cont at h
  split_ifs at h <;> simp at h <;> omega

lemma utf8Cont_range {b : Nat} (h : utf8Cont b = true) : 0x80 ≤ b ∧ b ≤ 0xBF := by
  simpa [utf8Cont] using h

lemma decodeRune_take {b : Nat} {rest : List Nat} {r s : Nat}
    (h : decodeRune (b :: rest) = (r, s)) (hr : r ≠ 0xFFFD) :
    decodeRune ((b :: rest).take s) = (r, s) := by
  rcases decodeRune_shape h hr with
      ⟨hs, hb, hrb⟩ | ⟨b1, t, hrest, hs, hbl, hbu, hc, hrv⟩ |
      ⟨b1, b2, t, hrest, hs, hbl, hbu, ha, hc, hrv⟩ |
      ⟨b1, b2, b3, t, hrest, hs, hbl, hbu, ha, hc2, hc3, hrv⟩
  · subst hs hrb
    simp [decodeRune, hb]
  · subst hs hrest hrv
    simp [decodeRune, hc, show ¬b < 0x80 by omega, show ¬b < 0xC2 by omega,
      show b < 0xE0 by omega]
  · subst hs hrest hrv
    simp [decodeRune, ha, hc, show ¬b < 0x80 by omega, show ¬b < 0xC2 by omega,
      show ¬b < 0xE0 by omega, show b < 0xF0 by omega]
  · subst hs hrest hrv
    simp [decodeRune, ha, hc2, hc3, show ¬b < 0x80 by omega,
      show ¬b < 0xC2 by omega, show ¬b < 0xE0 by omega, show ¬b < 0xF0 by omega,
      show b < 0xF5 by omega]

lemma unhex_hexDigit {n : Nat} (h : n < 16) : unhex (hexDigit n) = some n := by
  by_cases h10 : n < 10
  · rw [hexDigit, if_pos h10]
    unfold unhex
    rw [if_pos (by omega)]
    simp only [Option.some.injEq]
    omega
  · rw [hexDigit, if_neg h10]
    unfold unhex
    rw [if_neg (by omega), if_pos (by omega)]
    simp only [Option.some.injEq]
    omega

lemma readDigits_length (dig : Nat → Option Nat) (base : Nat) :
    ∀ (k acc : Nat) (r : List Nat) (v : Nat) (rest : List Nat),
    readDigits dig base k acc r = some (v, rest) → rest.length ≤ r.length := by
  intro k
  induction k with
  | zero =>
    intro acc r v rest h
    simp only [readDigits, Option.some.injEq, Prod.mk.injEq] at h
    simp [h.2]
  | succ k ih =>
    intro acc r v rest h
    cases r with
    | nil => simp [readDigits] at h
    | cons c rr =>
      simp only [readDigits] at h
      cases hu : dig c with
      | none => rw [hu] at h; simp at h
      | some d =>
        rw [hu] at h
        have := ih _ _ _ _ h
        simp only [List.length_cons]
        omega

lemma escDecode_length {r : List Nat} {v rest : List Nat}
    (h : escDecode r = some (v, rest)) : rest.length ≤ r.length := by
  cases r with
  | nil => simp [escDecode] at h
  | cons e rr =>
    simp only [escDecode] at h
    by_cases h1 : e = 97
    case pos =>
      rw [if_pos h1] at h
      simp only [Option.some.injEq, Prod.mk.injEq] at h
      rw [← h.2]; simp
    rw [if_neg h1] at h
    by_cases h2 : e = 98
    case pos =>
      rw [if_pos h2] at h
      simp only [Option.some.injEq, Prod.mk.injEq] at h
      rw [← h.2]; simp
    rw [if_neg h2] at h
    by_cases h3 : e = 102
    case pos =>
      rw [if_pos h3] at h
      simp only [Option.some.injEq, Prod.mk.injEq] at h
      rw [← h.2]; simp
    rw [if_neg h3] at h
    by_cases h4 : e = 110
    case pos =>
      rw [if_pos h4] at h
      simp only [Option.some.injEq, Prod.mk.injEq] at h
      rw [← h.2]; simp
    rw [if_neg h4] at h
    by_cases h5 : e = 114
    case pos =>
      rw [if_pos h5] at h
      simp only [Option.some.injEq, Prod.mk.injEq] at h
      rw [← h.2]; simp
    rw [if_neg h5] at h
    by_cases h6 : e = 116
    case pos =>
      rw [if_pos h6] at h
      simp only [Option.some.injEq, Prod.mk.injEq] at h
      rw [← h.2]; simp
    rw [if_neg h6] at h
    by_cases h7 : e = 118
    case pos =>
      rw [if_pos h7] at h
      simp only [Option.some.injEq, Prod.mk.injEq] at h
      rw [← h.2]; simp
    rw [if_neg h7] at h
    by_cases h8 : e = 92
    case pos =>
      rw [if_pos h8] at h
      simp only [Option.some.injEq, Prod.mk.injEq] at h
      rw [← h.2]; simp
    rw [if_neg h8] at h
    by_cases h9 : e = 34
    case pos =>
      rw [if_pos h9] at h
      simp only [Option.some.injEq, Prod.mk.injEq] at h
      rw [← h.2]; simp
    rw [if_neg h9] at h
    by_cases hx : e = 120
    case pos =>
      rw [if_pos hx] at h
      revert h
      cases hd : readDigits unhex 16 2 0 rr with
      | none => intro h; exact absurd h (by simp)
      | some p =>
        obtain ⟨pv, pr⟩ := p
        intro h
        simp only [Option.some.injEq, Prod.mk.injEq] at h
        have hle := readDigits_length unhex 16 2 0 rr pv pr hd
        rw [← h.2]
        simp only [List.length_cons]
        omega
    rw [if_neg hx] at h
    by_cases hu : e = 117
    case pos =>
      rw [if_pos hu] at h
      revert h
      cases hd : readDigits unhex 16 4 0 rr with
      | none => intro h; exact absurd h (by simp)
      | some p =>
        obtain ⟨pv, pr⟩ := p
        intro h
        have hle := readDigits_length unhex 16 4 0 rr pv pr hd
        dsimp only at h
        split_ifs at h
        simp only [Option.some.injEq, Prod.mk.injEq] at h
        rw [← h.2]
        simp only [List.length_cons]
        omega
    rw [if_neg hu] at h
    by_cases hU : e = 85
    case pos =>
      rw [if_pos hU] at h
      revert h
      cases hd : readDigits unhex 16 8 0 rr with
      | none => intro h; exact absurd h (by simp)
      | some p =>
        obtain ⟨pv, pr⟩ := p
        intro h
        have hle := readDigits_length unhex 16 8 0 rr pv pr hd
        dsimp only at h
        split_ifs at h
        simp only [Option.some.injEq, Prod.mk.injEq] at h
        rw [← h.2]
        simp only [List.length_cons]
        omega
    rw [if_neg hU] at h
    revert h
    cases hd : readDigits octDigit 8 3 0 (e :: rr) with
    | none => intro h; exact absurd h (by simp)
    | some p =>
      obtain ⟨pv, pr⟩ := p
      intro h
      have hle := readDigits_length octDigit 8 3 0 (e :: rr) pv pr hd
      dsimp only at h
      split_ifs at h
      simp only [Option.some.injEq, Prod.mk.injEq] at h
      rw [← h.2]
      simp only [List.length_cons] at hle ⊢
      omega

lemma goDecodeF_congr : ∀ (fuel fuel' : Nat) (l : List Nat),
    l.length ≤ fuel → l.length ≤ fuel' → goDecodeF fuel l = goDecodeF fuel' l := by
  intro fuel
  induction fuel with
  | zero =>
    intro fuel' l hl _
    have hnil : l = [] := List.length_eq_zero.mp (Nat.le_zero.mp hl)
    subst hnil
    cases fuel' <;> rfl
  | succ fuel ih =>
    intro fuel' l hl hl'
    cases l with
    | nil => cases fuel' <;> rfl
    | cons c r =>
      cases fuel' with
      | zero => simp at hl'
      | succ fuel' =>
        have hr : r.length ≤ fuel := by simpa using hl
        have hr' : r.length ≤ fuel' := by simpa using hl'
        simp only [goDecodeF]
        split_ifs
        · cases hd : escDecode r with
          | none => rfl
          | some p =>
            obtain ⟨v, rest⟩ := p
            have hlen := escDecode_length hd
            dsimp only
            rw [ih fuel' rest (by omega) (by omega)]
        · rfl
        · rfl
        · rw [ih fuel' r hr hr']

lemma goDecodeF_eq (fuel : Nat) (l : List Nat) (h : l.length ≤ fuel) :
    goDecodeF fuel l = goDecode l :=
  goDecodeF_congr fuel l.length l h le_rfl

lemma goDecode_cons_safe {b : Nat} (l : List Nat) (h92 : b ≠ 92) (h34 : b ≠ 34)
    (h10 : b ≠ 10) : goDecode (b :: l) = (goDecode l).map (fun t => b :: t) := by
  show goDecodeF (l.length + 1) (b :: l) = _
  simp only [goDecodeF, if_neg h92, if_neg h34, if_neg h10]
  rfl

lemma goDecode_cons_esc {l v rest : List Nat} (h : escDecode l = some (v, rest)) :
    goDecode (92 :: l) = (goDecode rest).map (fun t => v ++ t) := by
  show goDecodeF (l.length + 1) (92 :: l) = _
  simp only [goDecodeF]
  norm_num [h]
  rw [goDecodeF_eq l.length rest (escDecode_length h)]

lemma goDecode_append_safe : ∀ (u l : List Nat),
    (∀ c ∈ u, c ≠ 92 ∧ c ≠ 34 ∧ c ≠ 10) →
    goDecode (u ++ l) = (goDecode l).map (fun t => u ++ t) := by
  intro u
  induction u with
  | nil =>
    intro l _
    cases h : goDecode l <;> simp [h]
  | cons c u ih =>
    intro l hu
    have hc := hu c (by simp)
    rw [List.cons_append, goDecode_cons_safe _ hc.1 hc.2.1 hc.2.2,
      ih l (fun x hx => hu x (by simp [hx]))]
    cases h : goDecode l <;> simp [h]

lemma goDecode_encodeF : ∀ (fuel : Nat) (l : List Nat), l.length ≤ fuel →
    (∀ b ∈ l, b < 256) → goDecode (encodeF fuel l) = some l := by
  intro fuel
  induction fuel with
  | zero =>
    intro l hl _
    have hnil : l = [] := List.length_eq_zero.mp (Nat.le_zero.mp hl)
    subst hnil; rfl
  | succ fuel ih =>
    intro l hl hb
    cases l with
    | nil => rfl
    | cons b rest =>
      have hr : rest.length ≤ fuel := by simpa using hl
      have hbrest : ∀ x ∈ rest, x < 256 := fun x hx => hb x (by simp [hx])
      have hbb : b < 256 := hb b (by simp)
      by_cases h92 : b = 92
      · subst h92
        simp only [encodeF]
        norm_num
        have hesc : escDecode (92 :: encodeF fuel rest) =
            some ([92], encodeF fuel rest) := by simp [escDecode]
        rw [goDecode_cons_esc hesc, ih rest hr hbrest]
        rfl
      · by_cases h34 : b = 34
        · subst h34
          simp only [encodeF]
          norm_num
          have hesc : escDecode (34 :: encodeF fuel rest) =
              some ([34], encodeF fuel rest) := by simp [escDecode]
          rw [goDecode_cons_esc hesc, ih rest hr hbrest]
          rfl
        · by_cases h10 : b = 10
          · subst h10
            simp only [encodeF]
            norm_num
            have hesc : escDecode (110 :: encodeF fuel rest) =
                some ([10], encodeF fuel rest) := by simp [escDecode]
            rw [goDecode_cons_esc hesc, ih rest hr hbrest]
            rfl
          · by_cases h0 : b = 0
            · subst h0
              simp only [encodeF]
              norm_num
              have hesc : escDecode (120 :: 48 :: 48 :: encodeF fuel rest) =
                  some ([0], encodeF fuel rest) := by
                simp [escDecode, readDigits, unhex]
              rw [goDecode_cons_esc hesc, ih rest hr hbrest]
              rfl
            · obtain ⟨r, s, hdr⟩ : ∃ p q, decodeRune (b :: rest) = (p, q) :=
                ⟨_, _, rfl⟩
              have hpos := decodeRune_snd_pos b rest
              rw [hdr] at hpos
              simp only [encodeF, if_neg h92, if_neg h34, if_neg h10, if_neg h0,
                hdr]
              by_cases hval : r ≠ 0xFFFD ∧ r ≠ 0xFEFF
              · rw [if_pos hval]
                have hsafe : ∀ c ∈ (b :: rest).take s,
                    c ≠ 92 ∧ c ≠ 34 ∧ c ≠ 10 := by
                  rcases decodeRune_shape hdr hval.1 with
                      ⟨hs, hblt, _⟩ | ⟨b1, t, hrest, hs, hbl, _, hc, _⟩ |
                      ⟨b1, b2, t, hrest, hs, hbl, _, ha, hc, _⟩ |
                      ⟨b1, b2, b3, t, hrest, hs, hbl, _, ha, hc2, hc3, _⟩
                  · subst hs
                    intro c hcm
                    simp at hcm
                    subst hcm
                    exact ⟨h92, h34, h10⟩
                  · subst hs hrest
                    have := utf8Cont_range hc
                    intro c hcm
                    simp at hcm
                    rcases hcm with rfl | rfl <;> omega
                  · subst hs hrest
                    have h1 := utf8Accept3_cont ha
                    have h2 := utf8Cont_range hc
                    intro c hcm
                    simp at hcm
                    rcases hcm with rfl | rfl | rfl <;> omega
                  · subst hs hrest
                    have h1 := utf8Accept4_cont ha
                    have h2 := utf8Cont_range hc2
                    have h3 := utf8Cont_range hc3
                    intro c hcm
                    simp at hcm
                    rcases hcm with rfl | rfl | rfl | rfl <;> omega
                rw [goDecode_append_safe _ _ hsafe]
                have hdl : ((b :: rest).drop s).length ≤ fuel := by
                  simp only [List.length_drop, List.length_cons]
                  omega
                have hdb : ∀ x ∈ (b :: rest).drop s, x < 256 :=
                  fun x hx => hb x (List.drop_subset _ _ hx)
                rw [ih _ hdl hdb]
                simp
              · rw [if_neg hval]
                have hu1 : unhex (hexDigit (b / 16)) = some (b / 16) :=
                  unhex_hexDigit (by omega)
                have hu2 : unhex (hexDigit (b % 16)) = some (b % 16) :=
                  unhex_hexDigit (by omega)
                have hesc : escDecode
                    (120 :: hexDigit (b / 16) :: hexDigit (b % 16) ::
                      encodeF fuel rest) =
                    some ([b], encodeF fuel rest) := by
                  simp [escDecode, readDigits, hu1, hu2]
                  omega
                simp only [hexEsc, List.cons_append, List.nil_append]
                rw [goDecode_cons_esc hesc, ih rest hr hbrest]
                rfl

/-- The literal body produced for `B` decodes, per Go interpreted string
literal semantics, to exactly `B`. -/
lemma encode_roundTrip (B : List Nat) (hB : ∀ b ∈ B, b < 256) :
    goDecode (encode B) = some B :=
  goDecode_encodeF B.length B le_rfl hB

/-- True when `c` is a character Go's `%x` verb can produce: a decimal digit
or a lowercase hex letter. -/
def isHexDigitCh (c : Nat) : Prop := (48 ≤ c ∧ c ≤ 57) ∨ (97 ≤ c ∧ c ≤ 102)

/-- The escape sequences the encoder can emit: `\\`, `\"`, `\n`, `\xHH`. -/
def isEscTok (t : List Nat) : Prop :=
  t = [92, 92] ∨ t = [92, 34] ∨ t = [92, 110] ∨
  ∃ h1 h2, t = [92, 120, h1, h2] ∧ isHexDigitCh h1 ∧ isHexDigitCh h2

/-- The raw (unescaped) chunks the encoder can emit: a complete UTF-8 unit
whose rune the encoder passes through — so never NUL, newline, quote,
backslash, and never the byte-order mark `EF BB BF`. -/
def isRawTok (t : List Nat) : Prop :=
  (∃ b, t = [b] ∧ b < 0x80 ∧ b ≠ 0 ∧ b ≠ 10 ∧ b ≠ 34 ∧ b ≠ 92) ∨
  (∃ b0 b1, t = [b0, b1] ∧ 0xC2 ≤ b0 ∧ b0 ≤ 0xDF ∧ 0x80 ≤ b1 ∧ b1 ≤ 0xBF) ∨
  (∃ b0 b1 b2, t = [b0, b1, b2] ∧ 0xE0 ≤ b0 ∧ b0 ≤ 0xEF ∧
    0x80 ≤ b1 ∧ b1 ≤ 0xBF ∧ 0x80 ≤ b2 ∧ b2 ≤ 0xBF ∧ t ≠ [0xEF, 0xBB, 0xBF]) ∨
  (∃ b0 b1 b2 b3, t = [b0, b1, b2, b3] ∧ 0xF0 ≤ b0 ∧ b0 ≤ 0xF4 ∧
    0x80 ≤ b1 ∧ b1 ≤ 0xBF ∧ 0x80 ≤ b2 ∧ b2 ≤ 0xBF ∧ 0x80 ≤ b3 ∧ b3 ≤ 0xBF)

/-- A chunk the encoder can emit. -/
def encTok (t : List Nat) : Prop := isEscTok t ∨ isRawTok t

lemma hexDigit_isHex {n : Nat} (h : n < 16) : isHexDigitCh (hexDigit n) := by
  unfold hexDigit isHexDigitCh
  split_ifs <;> omega

lemma encodeF_tokens : ∀ (fuel : Nat) (l : List Nat), l.length ≤ fuel →
    (∀ b ∈ l, b < 256) →
    ∃ ts : List (List Nat), (∀ t ∈ ts, encTok t) ∧ encodeF fuel l = ts.flatten := by
  intro fuel
  induction fuel with
  | zero =>
    intro l hl _
    exact ⟨[], by simp, by simp [encodeF]⟩
  | succ fuel ih =>
    intro l hl hb
    cases l with
    | nil => exact ⟨[], by simp, rfl⟩
    | cons b rest =>
      have hr : rest.length ≤ fuel := by simpa using hl
      have hbrest : ∀ x ∈ rest, x < 256 := fun x hx => hb x (by simp [hx])
      have hbb : b < 256 := hb b (by simp)
      by_cases h92 : b = 92
      · obtain ⟨ts, hts, hjoin⟩ := ih rest hr hbrest
        subst h92
        refine ⟨[92, 92] :: ts, ?_, ?_⟩
        · intro t ht
          rcases List.mem_cons.mp ht with rfl | ht
          · exact Or.inl (Or.inl rfl)
          · exact hts t ht
        · simp only [encodeF]
          norm_num
          simp [hjoin]
      · by_cases h34 : b = 34
        · obtain ⟨ts, hts, hjoin⟩ := ih rest hr hbrest
          subst h34
          refine ⟨[92, 34] :: ts, ?_, ?_⟩
          · intro t ht
            rcases List.mem_cons.mp ht with rfl | ht
            · exact Or.inl (Or.inr (Or.inl rfl))
            · exact hts t ht
          · simp only [encodeF]
            norm_num
            simp [hjoin]
        · by_cases h10 : b = 10
          · obtain ⟨ts, hts, hjoin⟩ := ih rest hr hbrest
            subst h10
            refine ⟨[92, 110] :: ts, ?_, ?_⟩
            · intro t ht
              rcases List.mem_cons.mp ht with rfl | ht
              · exact Or.inl (Or.inr (Or.inr (Or.inl rfl)))
              · exact hts t ht
            · simp only [encodeF]
              norm_num
              simp [hjoin]
          · by_cases h0 : b = 0
            · obtain ⟨ts, hts, hjoin⟩ := ih rest hr hbrest
              subst h0
              refine ⟨[92, 120, 48, 48] :: ts, ?_, ?_⟩
              · intro t ht
                rcases List.mem_cons.mp ht with rfl | ht
                · exact Or.inl (Or.inr (Or.inr (Or.inr
                    ⟨48, 48, rfl, Or.inl (by omega), Or.inl (by omega)⟩)))
                · exact hts t ht
              · simp only [encodeF]
                norm_num
                simp [hjoin]
            · obtain ⟨r, s, hdr⟩ : ∃ p q, decodeRune (b :: rest) = (p, q) :=
                ⟨_, _, rfl⟩
              have hpos := decodeRune_snd_pos b rest
              rw [hdr] at hpos
              by_cases hval : r ≠ 0xFFFD ∧ r ≠ 0xFEFF
              · have hdl : ((b :: rest).drop s).length ≤ fuel := by
                  simp only [List.length_drop, List.length_cons]
                  omega
                have hdb : ∀ x ∈ (b :: rest).drop s, x < 256 :=
                  fun x hx => hb x (List.drop_subset _ _ hx)
                obtain ⟨ts, hts, hjoin⟩ := ih _ hdl hdb
                have hraw : isRawTok ((b :: rest).take s) := by
                  rcases decodeRune_shape hdr hval.1 with
                      ⟨hs, hblt, _⟩ | ⟨b1, t, hrest, hs, hbl, hbu, hc, _⟩ |
                      ⟨b1, b2, t, hrest, hs, hbl, hbu, ha, hc, hrv⟩ |
                      ⟨b1, b2, b3, t, hrest, hs, hbl, hbu, ha, hc2, hc3, _⟩
                  · subst hs
                    exact Or.inl ⟨b, by simp, hblt, h0, h10, h34, h92⟩
                  · subst hs hrest
                    have hc' := utf8Cont_range hc
                    exact Or.inr (Or.inl ⟨b, b1, by simp, by omega, by omega,
                      by omega, by omega⟩)
                  · subst hs hrest
                    have h1 := utf8Accept3_cont ha
                    have h2 := utf8Cont_range hc
                    refine Or.inr (Or.inr (Or.inl ⟨b, b1, b2, by simp, by omega,
                      by omega, by omega, by omega, by omega, by omega, ?_⟩))
                    intro heq
                    simp only [List.take_succ_cons, List.take_zero,
                      List.cons.injEq, and_true] at heq
                    obtain ⟨rfl, rfl, rfl⟩ := heq
                    rw [hrv] at hval
                    norm_num at hval
                  · subst hs hrest
                    have h1 := utf8Accept4_cont ha
                    have h2 := utf8Cont_range hc2
                    have h3 := utf8Cont_range hc3
                    exact Or.inr (Or.inr (Or.inr ⟨b, b1, b2, b3, by simp,
                      by omega, by omega, by omega, by omega, by omega, by omega,
                      by omega, by omega⟩))
                refine ⟨(b :: rest).take s :: ts, ?_, ?_⟩
                · intro t ht
                  rcases List.mem_cons.mp ht with rfl | ht
                  · exact Or.inr hraw
                  · exact hts t ht
                · simp only [encodeF, if_neg h92, if_neg h34, if_neg h10,
                    if_neg h0, hdr]
                  rw [if_pos hval, hjoin]
                  simp
              · obtain ⟨ts, hts, hjoin⟩ := ih rest hr hbrest
                refine ⟨hexEsc b :: ts, ?_, ?_⟩
                · intro t ht
                  rcases List.mem_cons.mp ht with rfl | ht
                  · exact Or.inl (Or.inr (Or.inr (Or.inr
                      ⟨hexDigit (b / 16), hexDigit (b % 16), rfl,
                        hexDigit_isHex (by omega), hexDigit_isHex (by omega)⟩)))
                  · exact hts t ht
                · simp only [encodeF, if_neg h92, if_neg h34, if_neg h10,
                    if_neg h0, hdr]
                  rw [if_neg hval, hjoin]
                  simp

/-- The encoder's output is a concatenation of escape sequences and raw
passthrough rune units. -/
lemma encode_tokens (B : List Nat) (hB : ∀ b ∈ B, b < 256) :
    ∃ ts : List (List Nat), (∀ t ∈ ts, encTok t) ∧ encode B = ts.flatten :=
  encodeF_tokens B.length B le_rfl hB

lemma isEscTok_bytes {t : List Nat} (h : isEscTok t) :
    ∀ c ∈ t, c ≠ 0 ∧ c ≠ 10 := by
  rcases h with rfl | rfl | rfl | ⟨h1, h2, rfl, hh1, hh2⟩
  · intro c hc; simp at hc; omega
  · intro c hc; simp at hc; rcases hc with rfl | rfl <;> omega
  · intro c hc; simp at hc; rcases hc with rfl | rfl <;> omega
  · intro c hc
    simp at hc
    rcases hh1 with hh1 | hh1 <;> rcases hh2 with hh2 | hh2 <;>
      rcases hc with rfl | rfl | rfl | rfl <;> omega

lemma isRawTok_bytes {t : List Nat} (h : isRawTok t) :
    ∀ c ∈ t, c ≠ 0 ∧ c ≠ 10 ∧ c ≠ 34 ∧ c ≠ 92 := by
  rcases h with ⟨b, rfl, hlt, hA, hB, hC, hD⟩ | ⟨b0, b1, rfl, hA, hB, hC, hD⟩ |
      ⟨b0, b1, b2, rfl, hA, hB, hC, hD, hE, hF, _⟩ |
      ⟨b0, b1, b2, b3, rfl, hA, hB, hC, hD, hE, hF, hG, hH⟩
  · intro c hc; simp at hc; omega
  · intro c hc; simp at hc; rcases hc with rfl | rfl <;> omega
  · intro c hc; simp at hc; rcases hc with rfl | rfl | rfl <;> omega
  · intro c hc; simp at hc; rcases hc with rfl | rfl | rfl | rfl <;> omega

lemma encTok_no_nul_newline {t : List Nat} (h : encTok t) :
    ∀ c ∈ t, c ≠ 0 ∧ c ≠ 10 := by
  rcases h with hesc | hraw
  · exact isEscTok_bytes hesc
  · intro c hc
    have hx := isRawTok_bytes hraw c hc
    exact ⟨hx.1, hx.2.1⟩

/-- Scanner over a string-literal body mirroring how the Go lexer consumes it:
a backslash consumes the following character (the flag records that the next
character is escaped); returns `true` iff the body contains a quote character
that is not consumed as part of an escape (which would terminate the literal
early). -/
def unescQ : Bool → List Nat → Bool
  | _, [] => false
  | true, _ :: r => unescQ false r
  | false, c :: r =>
    if c = 92 then unescQ true r
    else if c = 34 then true
    else unescQ false r

/-- True iff the body contains an unescaped quote character. -/
def unescapedQuote (l : List Nat) : Bool := unescQ false l

lemma unescapedQuote_esc_step (x : Nat) (l : List Nat) :
    unescapedQuote (92 :: x :: l) = unescapedQuote l := rfl

lemma unescapedQuote_safe_step {c : Nat} (l : List Nat) (h92 : c ≠ 92)
    (h34 : c ≠ 34) : unescapedQuote (c :: l) = unescapedQuote l := by
  show unescQ false (c :: l) = unescQ false l
  simp only [unescQ, if_neg h92, if_neg h34]

lemma encTok_unescapedQuote {t : List Nat} (h : encTok t) (l : List Nat) :
    unescapedQuote (t ++ l) = unescapedQuote l := by
  rcases h with hesc | hraw
  · rcases hesc with rfl | rfl | rfl | ⟨h1, h2, rfl, hh1, hh2⟩
    · exact unescapedQuote_esc_step 92 l
    · exact unescapedQuote_esc_step 34 l
    · exact unescapedQuote_esc_step 110 l
    · rw [show [92, 120, h1, h2] ++ l = 92 :: 120 :: h1 :: h2 :: l from rfl,
        unescapedQuote_esc_step,
        unescapedQuote_safe_step _ (by rcases hh1 with h | h <;> omega)
          (by rcases hh1 with h | h <;> omega),
        unescapedQuote_safe_step _ (by rcases hh2 with h | h <;> omega)
          (by rcases hh2 with h | h <;> omega)]
  · rcases hraw with ⟨b, rfl, hlt, hA, hB, hC, hD⟩ |
        ⟨b0, b1, rfl, hA, hB, hC, hD⟩ |
        ⟨b0, b1, b2, rfl, hA, hB, hC, hD, hE, hF, _⟩ |
        ⟨b0, b1, b2, b3, rfl, hA, hB, hC, hD, hE, hF, hG, hH⟩
    · rw [show [b] ++ l = b :: l from rfl,
        unescapedQuote_safe_step _ (by omega) (by omega)]
    · rw [show [b0, b1] ++ l = b0 :: b1 :: l from rfl,
        unescapedQuote_safe_step _ (by omega) (by omega),
        unescapedQuote_safe_step _ (by omega) (by omega)]
    · rw [show [b0, b1, b2] ++ l = b0 :: b1 :: b2 :: l from rfl,
        unescapedQuote_safe_step _ (by omega) (by omega),
        unescapedQuote_safe_step _ (by omega) (by omega),
        unescapedQuote_safe_step _ (by omega) (by omega)]
    · rw [show [b0, b1, b2, b3] ++ l = b0 :: b1 :: b2 :: b3 :: l from rfl,
        unescapedQuote_safe_step _ (by omega) (by omega),
        unescapedQuote_safe_step _ (by omega) (by omega),
        unescapedQuote_safe_step _ (by omega) (by omega),
        unescapedQuote_safe_step _ (by omega) (by omega)]

lemma unescapedQuote_flatten : ∀ ts : List (List Nat), (∀ t ∈ ts, encTok t) →
    unescapedQuote ts.flatten = false := by
  intro ts
  induction ts with
  | nil => intro _; rfl
  | cons t ts ih =>
    intro h
    rw [List.flatten_cons, encTok_unescapedQuote (h t (by simp)),
      ih (fun x hx => h x (by simp [hx]))]

/-- State update of a three-state matcher for the byte substring
`EF BB BF` (the UTF-8 encoding of the byte-order mark): the state counts how
many pattern bytes are currently matched. -/
def bomStep (s c : Nat) : Nat :=
  if c = 0xEF then 1 else if s = 1 ∧ c = 0xBB then 2 else 0

/-- Runs the `EF BB BF` matcher; `true` iff the byte substring occurs (given
the starting state). -/
def bomFind : Nat → List Nat → Bool
  | _, [] => false
  | s, c :: r => if s = 2 ∧ c = 0xBF then true else bomFind (bomStep s c) r

lemma bomFind_cons (s c : Nat) (m : List Nat) :
    bomFind s (c :: m) =
      if s = 2 ∧ c = 0xBF then true else bomFind (bomStep s c) m := rfl

lemma bomFind_pattern : ∀ (u : List Nat) (s : Nat) (w : List Nat),
    bomFind s (u ++ 0xEF :: 0xBB :: 0xBF :: w) = true := by
  intro u
  induction u with
  | nil =>
    intro s w
    simp [bomFind, bomStep]
  | cons c u ih =>
    intro s w
    rw [List.cons_append, bomFind_cons]
    by_cases h : s = 2 ∧ c = 0xBF
    · rw [if_pos h]
    · rw [if_neg h]
      exact ih _ w

lemma bomFind_step0 {c : Nat} (m : List Nat) (h : c ≠ 0xEF) :
    bomFind 0 (c :: m) = bomFind 0 m := by
  simp [bomFind, bomStep, h]

lemma encTok_bomFind {t : List Nat} (h : encTok t) (l : List Nat) :
    bomFind 0 (t ++ l) = bomFind 0 l := by
  rcases h with hesc | hraw
  · rcases hesc with rfl | rfl | rfl | ⟨h1, h2, rfl, hh1, hh2⟩
    · rw [show [92, 92] ++ l = 92 :: 92 :: l from rfl,
        bomFind_step0 _ (by omega), bomFind_step0 _ (by omega)]
    · rw [show [92, 34] ++ l = 92 :: 34 :: l from rfl,
        bomFind_step0 _ (by omega), bomFind_step0 _ (by omega)]
    · rw [show [92, 110] ++ l = 92 :: 110 :: l from rfl,
        bomFind_step0 _ (by omega), bomFind_step0 _ (by omega)]
    · rw [show [92, 120, h1, h2] ++ l = 92 :: 120 :: h1 :: h2 :: l from rfl,
        bomFind_step0 _ (by omega), bomFind_step0 _ (by omega),
        bomFind_step0 _ (by rcases hh1 with h | h <;> omega),
        bomFind_step0 _ (by rcases hh2 with h | h <;> omega)]
  · rcases hraw with ⟨b, rfl, hlt, hA, hB, hC, hD⟩ |
        ⟨b0, b1, rfl, hA, hB, hC, hD⟩ |
        ⟨b0, b1, b2, rfl, hA, hB, hC, hD, hE, hF, hbom⟩ |
        ⟨b0, b1, b2, b3, rfl, hA, hB, hC, hD, hE, hF, hG, hH⟩
    · rw [show [b] ++ l = b :: l from rfl, bomFind_step0 _ (by omega)]
    · rw [show [b0, b1] ++ l = b0 :: b1 :: l from rfl,
        bomFind_step0 _ (by omega), bomFind_step0 _ (by omega)]
    · rw [show [b0, b1, b2] ++ l = b0 :: b1 :: b2 :: l from rfl]
      by_cases hb0 : b0 = 0xEF
      · subst hb0
        rw [bomFind_cons, if_neg (by omega), show bomStep 0 0xEF = 1 from rfl]
        by_cases hb1 : b1 = 0xBB
        · subst hb1
          rw [bomFind_cons, if_neg (by omega),
            show bomStep 1 0xBB = 2 from rfl, bomFind_cons,
            if_neg (by
              intro hx
              exact hbom (by rw [hx.2])),
            show bomStep 2 b2 = 0 from by
              unfold bomStep
              rw [if_neg (show ¬b2 = 0xEF by omega)]
              norm_num]
        · rw [bomFind_cons, if_neg (by omega),
            show bomStep 1 b1 = 0 from by
              unfold bomStep
              rw [if_neg (show ¬b1 = 0xEF by omega),
                if_neg (show ¬(1 = 1 ∧ b1 = 0xBB) by simp [hb1])],
            bomFind_step0 _ (by omega)]
      · rw [bomFind_step0 _ hb0, bomFind_step0 _ (by omega),
          bomFind_step0 _ (by omega)]
    · rw [show [b0, b1, b2, b3] ++ l = b0 :: b1 :: b2 :: b3 :: l from rfl,
        bomFind_step0 _ (by omega), bomFind_step0 _ (by omega),
        bomFind_step0 _ (by omega), bomFind_step0 _ (by omega)]

lemma bomFind_flatten : ∀ ts : List (List Nat), (∀ t ∈ ts, encTok t) →
    bomFind 0 ts.flatten = false := by
  intro ts
  induction ts with
  | nil => intro _; rfl
  | cons t ts ih =>
    intro h
    rw [List.flatten_cons, encTok_bomFind (h t (by simp)),
      ih (fun x hx => h x (by simp [hx]))]

lemma encode_single_backslash : encode [92] = [92, 92] := rfl

lemma encode_single_quote : encode [34] = [92, 34] := rfl

lemma encode_single_newline : encode [10] = [92, 110] := rfl

lemma encode_single_nul : encode [0] = [92, 120, 48, 48] := rfl

lemma encode_single_invalid {b : Nat} (rest : List Nat)
    (hb92 : b ≠ 92) (hb34 : b ≠ 34) (hb10 : b ≠ 10) (hb0 : b ≠ 0)
    (hq : (decodeRune (b :: rest)).1 = 0xFFFD ∨
      (decodeRune (b :: rest)).1 = 0xFEFF) :
    encode [b] = hexEsc b := by
  have hb80 : ¬b < 0x80 := by
    intro hlt
    have hd : decodeRune (b :: rest) = (b, 1) := by
      simp [decodeRune, hlt]
    rw [hd] at hq
    simp at hq
    omega
  have hone : decodeRune [b] = (0xFFFD, 1) := by
    simp only [decodeRune]
    rw [if_neg hb80]
    split_ifs <;> rfl
  have := encode_cons_invalid hone hb92 hb34 hb10 hb0 (Or.inl rfl)
  simpa using this

lemma encode_take_valid {b : Nat} {rest : List Nat} {r s : Nat}
    (h : decodeRune (b :: rest) = (r, s))
    (hb92 : b ≠ 92) (hb34 : b ≠ 34) (hb10 : b ≠ 10) (hb0 : b ≠ 0)
    (hr1 : r ≠ 0xFFFD) (hr2 : r ≠ 0xFEFF) :
    encode ((b :: rest).take s) = (b :: rest).take s := by
  have hpos := decodeRune_snd_pos b rest
  rw [h] at hpos
  have htk := decodeRune_take h hr1
  obtain ⟨k, rfl⟩ : ∃ k, s = k + 1 := ⟨s - 1, by omega⟩
  rw [List.take_succ_cons] at htk ⊢
  have hlen : (b :: rest.take k).length ≤ k + 1 := by
    simp only [List.length_cons, List.length_take]
    omega
  rw [encode_cons_valid htk hb92 hb34 hb10 hb0 hr1 hr2,
    List.take_of_length_le hlen, List.drop_eq_nil_of_le hlen]
  simp [encode_nil]

lemma writeLoopF_success {σ : Type} (wr : σ → List Nat → σ × Bool)
    (hwr : ∀ st c, (wr st c).2 = true) :
    ∀ (fuel : Nat) (st : σ) (l : List Nat), l.length ≤ fuel →
    (writeLoopF wr fuel st l).2 = ([], true) := by
  intro fuel
  induction fuel with
  | zero =>
    intro st l hl
    have hnil : l = [] := List.length_eq_zero.mp (Nat.le_zero.mp hl)
    subst hnil; rfl
  | succ fuel ih =>
    intro st l hl
    cases l with
    | nil => rfl
    | cons b rest =>
      have hr : rest.length ≤ fuel := by simpa using hl
      have hpos := decodeRune_snd_pos b rest
      have hdl : ((b :: rest).drop (decodeRune (b :: rest)).2).length ≤ fuel := by
        simp only [List.length_drop, List.length_cons]
        omega
      simp only [writeLoopF]
      split_ifs <;>
        first
          | exact ih _ rest hr
          | exact ih _ _ hdl
          | simp_all [hwr]

lemma writeLoopF_fail {σ : Type} (wr : σ → List Nat → σ × Bool) :
    ∀ (fuel : Nat) (st : σ) (l : List Nat) (s' : σ) (rem : List Nat),
    l.length ≤ fuel → writeLoopF wr fuel st l = (s', rem, false) →
    ∃ (u c : List Nat) (s1 : σ), l = u ++ c ++ rem ∧ c ≠ [] ∧
      (wr s1 (encode c)).2 = false := by
  intro fuel
  induction fuel with
  | zero =>
    intro st l s' rem hl h
    have hnil : l = [] := List.length_eq_zero.mp (Nat.le_zero.mp hl)
    subst hnil
    simp [writeLoopF] at h
  | succ fuel ih =>
    intro st l s' rem hl h
    cases l with
    | nil => simp [writeLoopF] at h
    | cons b rest =>
      have hr : rest.length ≤ fuel := by simpa using hl
      by_cases h92 : b = 92
      · subst h92
        simp only [writeLoopF, if_pos rfl] at h
        by_cases hw : (wr st [92, 92]).2 = true
        · rw [if_pos hw] at h
          obtain ⟨u, c, s1, hsplit, hc, hwf⟩ := ih _ rest s' rem hr h
          exact ⟨92 :: u, c, s1, by simp [hsplit], hc, hwf⟩
        · rw [if_neg hw] at h
          injection h with ha hbc
          injection hbc with hb hc
          simp only [Bool.not_eq_true] at hw
          refine ⟨[], [92], st, ?_, by simp, ?_⟩
          · rw [← hb]; simp
          · rw [encode_single_backslash]; exact hw
      · by_cases h34 : b = 34
        · subst h34
          simp only [writeLoopF, if_neg (by omega : ¬(34 : Nat) = 92),
            if_pos rfl] at h
          by_cases hw : (wr st [92, 34]).2 = true
          · rw [if_pos hw] at h
            obtain ⟨u, c, s1, hsplit, hc, hwf⟩ := ih _ rest s' rem hr h
            exact ⟨34 :: u, c, s1, by simp [hsplit], hc, hwf⟩
          · rw [if_neg hw] at h
            injection h with ha hbc
            injection hbc with hb hc
            simp only [Bool.not_eq_true] at hw
            refine ⟨[], [34], st, ?_, by simp, ?_⟩
            · rw [← hb]; simp
            · rw [encode_single_quote]; exact hw
        · by_cases h10 : b = 10
          · subst h10
            simp only [writeLoopF, if_neg (by omega : ¬(10 : Nat) = 92),
              if_neg (by omega : ¬(10 : Nat) = 34), if_pos rfl] at h
            by_cases hw : (wr st [92, 110]).2 = true
            · rw [if_pos hw] at h
              obtain ⟨u, c, s1, hsplit, hc, hwf⟩ := ih _ rest s' rem hr h
              exact ⟨10 :: u, c, s1, by simp [hsplit], hc, hwf⟩
            · rw [if_neg hw] at h
              injection h with ha hbc
              injection hbc with hb hc
              simp only [Bool.not_eq_true] at hw
              refine ⟨[], [10], st, ?_, by simp, ?_⟩
              · rw [← hb]; simp
              · rw [encode_single_newline]; exact hw
          · by_cases h0 : b = 0
            · subst h0
              simp only [writeLoopF, if_neg (by omega : ¬(0 : Nat) = 92),
                if_neg (by omega : ¬(0 : Nat) = 34),
                if_neg (by omega : ¬(0 : Nat) = 10), if_pos rfl] at h
              by_cases hw : (wr st [92, 120, 48, 48]).2 = true
              · rw [if_pos hw] at h
                obtain ⟨u, c, s1, hsplit, hc, hwf⟩ := ih _ rest s' rem hr h
                exact ⟨0 :: u, c, s1, by simp [hsplit], hc, hwf⟩
              · rw [if_neg hw] at h
                injection h with ha hbc
                injection hbc with hb hc
                simp only [Bool.not_eq_true] at hw
                refine ⟨[], [0], st, ?_, by simp, ?_⟩
                · rw [← hb]; simp
                · rw [encode_single_nul]; exact hw
            · simp only [writeLoopF, if_neg h92, if_neg h34, if_neg h10,
                if_neg h0] at h
              have hpos := decodeRune_snd_pos b rest
              by_cases hval : (decodeRune (b :: rest)).1 ≠ 0xFFFD ∧
                  (decodeRune (b :: rest)).1 ≠ 0xFEFF
              · rw [if_pos hval] at h
                by_cases hw :
                    (wr st ((b :: rest).take (decodeRune (b :: rest)).2)).2 = true
                · rw [if_pos hw] at h
                  have hdl :
                      ((b :: rest).drop (decodeRune (b :: rest)).2).length ≤
                        fuel := by
                    simp only [List.length_drop, List.length_cons]
                    omega
                  obtain ⟨u, c, s1, hsplit, hc, hwf⟩ := ih _ _ s' rem hdl h
                  refine ⟨(b :: rest).take (decodeRune (b :: rest)).2 ++ u, c, s1,
                    ?_, hc, hwf⟩
                  conv_lhs => rw [← List.take_append_drop
                    (decodeRune (b :: rest)).2 (b :: rest)]
                  rw [hsplit]
                  simp [List.append_assoc]
                · rw [if_neg hw] at h
                  injection h with ha hbc
                  injection hbc with hb hc
                  simp only [Bool.not_eq_true] at hw
                  refine ⟨[], (b :: rest).take (decodeRune (b :: rest)).2, st,
                    ?_, ?_, ?_⟩
                  · rw [← hb]
                    simp [List.take_append_drop]
                  · obtain ⟨k, hk⟩ : ∃ k, (decodeRune (b :: rest)).2 = k + 1 :=
                      ⟨(decodeRune (b :: rest)).2 - 1, by omega⟩
                    rw [hk, List.take_succ_cons]
                    simp
                  · rw [encode_take_valid Prod.mk.eta.symm h92 h34 h10 h0
                      hval.1 hval.2]
                    exact hw
              · rw [if_neg hval] at h
                by_cases hw : (wr st (hexEsc b)).2 = true
                · rw [if_pos hw] at h
                  obtain ⟨u, c, s1, hsplit, hc, hwf⟩ := ih _ rest s' rem hr h
                  exact ⟨b :: u, c, s1, by simp [hsplit], hc, hwf⟩
                · rw [if_neg hw] at h
                  injection h with ha hbc
                  injection hbc with hb hc
                  simp only [Bool.not_eq_true] at hw
                  refine ⟨[], [b], st, ?_, by simp, ?_⟩
                  · rw [← hb]; simp
                  · rw [encode_single_invalid rest h92 h34 h10 h0 (by omega)]
                    exact hw

lemma writeLoopF_appendSink : ∀ (fuel : Nat) (acc l : List Nat),
    l.length ≤ fuel →
    writeLoopF appendSink fuel acc l = (acc ++ encodeF fuel l, [], true) := by
  intro fuel
  induction fuel with
  | zero =>
    intro acc l hl
    have hnil : l = [] := List.length_eq_zero.mp (Nat.le_zero.mp hl)
    subst hnil
    simp [writeLoopF, encodeF]
  | succ fuel ih =>
    intro acc l hl
    cases l with
    | nil => simp [writeLoopF, encodeF]
    | cons b rest =>
      have hr : rest.length ≤ fuel := by simpa using hl
      have hpos := decodeRune_snd_pos b rest
      have hdl : ((b :: rest).drop (decodeRune (b :: rest)).2).length ≤ fuel := by
        simp only [List.length_drop, List.length_cons]
        omega
      simp only [writeLoopF, encodeF, appendSink]
      split_ifs <;>
        simp [ih _ rest hr, ih _ _ hdl, List.append_assoc]

/-- The text `io.Copy(&writer{w: os.Stdout}, bytes.NewReader(data))` adds to
the output stream is exactly `encode data`, and the copy succeeds. -/
lemma writerWrite_appendSink (acc data : List Nat) :
    writerWrite appendSink acc data = (acc ++ encode data, data.length, true) := by
  unfold writerWrite
  rw [writeLoopF_appendSink data.length acc data le_rfl]
  simp [encode]

/-- Output of a gzip-mode run, as the concatenation of the printed pieces in
source order: header, prologue (imports and `func init` together), the
uninitialized declaration, the `_gzip` declaration opener, the encoded
compressed payload, and the closing `")`. -/
lemma mainOutput_gzip (pkg v raw : List Nat) (compress : List Nat → List Nat) :
    mainOutput pkg v true compress raw =
      headerText pkg ++ prologueText v ++ uninitText v ++ gzipOpenText v ++
        encode (compress raw) ++ closeText := by
  unfold mainOutput mainRun
  simp only [appendSink, writerWrite_appendSink, if_true]
  simp [List.append_assoc]

/-- Output of a non-gzip run. -/
lemma mainOutput_plain (pkg v raw : List Nat) (compress : List Nat → List Nat) :
    mainOutput pkg v false compress raw =
      headerText pkg ++ plainOpenText v ++ encode raw ++ closeText := by
  unfold mainOutput mainRun
  simp only [appendSink, writerWrite_appendSink, Bool.false_eq_true, if_false]
  simp [List.append_assoc]

/-- Stdout sink on which every write fails (e.g. a closed pipe). -/
def failSink : Nat → List Nat → Nat × Bool := fun s _ => (s + 1, false)

/-- C1: for every byte sequence `B` (empty included, all byte values 0–255
included), decoding the literal body the encoder produces from `B` per Go
interpreted-string-literal semantics yields exactly `B`. -/
theorem claim_C1_roundtrip (B : List Nat) (hB : ∀ b ∈ B, b < 256) :
    goDecode (encode B) = some B :=
  encode_roundTrip B hB

/-- C1 witness: the round trip at a concrete input containing NUL, newline,
quote, backslash, a multi-byte rune, stray continuation and invalid bytes,
and the byte-order mark. -/
theorem claim_C1_witness :
    goDecode (encode [0, 10, 34, 92, 0xE2, 0x82, 0xAC, 0x80, 0xFF, 0xEF, 0xBB,
      0xBF]) =
      some [0, 10, 34, 92, 0xE2, 0x82, 0xAC, 0x80, 0xFF, 0xEF, 0xBB, 0xBF] :=
  claim_C1_roundtrip _ (by decide)

/-- C2: the encoder's output never contains a raw newline, a raw unescaped
double quote, a raw NUL byte, or the raw byte-order mark (the byte substring
`EF BB BF`); each such byte is replaced by an escape sequence. -/
theorem claim_C2_legality (B : List Nat) (hB : ∀ b ∈ B, b < 256) :
    10 ∉ encode B ∧ 0 ∉ encode B ∧ unescapedQuote (encode B) = false ∧
    ∀ u w, encode B ≠ u ++ 0xEF :: 0xBB :: 0xBF :: w := by
  obtain ⟨ts, hts, hj⟩ := encode_tokens B hB
  refine ⟨?_, ?_, ?_, ?_⟩
  · rw [hj]
    intro hmem
    rw [List.mem_flatten] at hmem
    obtain ⟨t, ht, hc⟩ := hmem
    exact (encTok_no_nul_newline (hts t ht) 10 hc).2 rfl
  · rw [hj]
    intro hmem
    rw [List.mem_flatten] at hmem
    obtain ⟨t, ht, hc⟩ := hmem
    exact (encTok_no_nul_newline (hts t ht) 0 hc).1 rfl
  · rw [hj]
    exact unescapedQuote_flatten ts hts
  · intro u w heq
    have hfind : bomFind 0 (encode B) = false := by
      rw [hj]
      exact bomFind_flatten ts hts
    rw [heq, bomFind_pattern] at hfind
    exact Bool.noConfusion hfind

/-- C2 witness: legality at a concrete input containing a newline, a quote, a
NUL, and the byte-order mark. -/
theorem claim_C2_witness :
    10 ∉ encode [104, 10, 34, 0, 0xEF, 0xBB, 0xBF] ∧
    0 ∉ encode [104, 10, 34, 0, 0xEF, 0xBB, 0xBF] ∧
    unescapedQuote (encode [104, 10, 34, 0, 0xEF, 0xBB, 0xBF]) = false ∧
    encode [104, 10, 34, 0, 0xEF, 0xBB, 0xBF] ≠
      [] ++ 0xEF :: 0xBB :: 0xBF :: [] := by
  have h := claim_C2_legality [104, 10, 34, 0, 0xEF, 0xBB, 0xBF] (by decide)
  exact ⟨h.1, h.2.1, h.2.2.1, h.2.2.2 [] []⟩

/-- C3 counterexample: `EF BF BD` is a valid 3-byte UTF-8 unit (it encodes
U+FFFD, not the byte-order mark), yet the encoder does not pass it through:
because Go's `utf8.DecodeRune` reports U+FFFD with the same `RuneError` value
it uses for failure, each of the three bytes is individually hex-escaped. -/
theorem claim_C3_counterexample :
    specValidUnit [0xEF, 0xBF, 0xBD] = true ∧
    unitRune [0xEF, 0xBF, 0xBD] ≠ 0xFEFF ∧
    encode [0xEF, 0xBF, 0xBD] ≠ [0xEF, 0xBF, 0xBD] ∧
    encode [0xEF, 0xBF, 0xBD] = hexEsc 0xEF ++ hexEsc 0xBF ++ hexEsc 0xBD := by
  decide

/-- C3 as amended: whenever the encoder stands at a valid multi-byte UTF-8
unit whose code point is neither the byte-order mark U+FEFF nor the
replacement character U+FFFD, the whole unit passes through unescaped and
encoding continues after it; no byte of it is individually escaped. -/
theorem claim_C3_passthrough (b : Nat) (rest : List Nat) (r s : Nat)
    (h : decodeRune (b :: rest) = (r, s)) (h2 : 2 ≤ s) (hFFFD : r ≠ 0xFFFD)
    (hBOM : r ≠ 0xFEFF) :
    encode (b :: rest) = (b :: rest).take s ++ encode ((b :: rest).drop s) := by
  have hb : 0xC2 ≤ b := by
    rcases decodeRune_shape h hFFFD with ⟨hs, _, _⟩ |
        ⟨_, _, _, hs, hbl, _, _, _⟩ | ⟨_, _, _, _, hs, hbl, _, _, _, _⟩ |
        ⟨_, _, _, _, _, hs, hbl, _, _, _, _, _⟩ <;> omega
  exact encode_cons_valid h (by omega) (by omega) (by omega) (by omega)
    hFFFD hBOM

/-- C3 witness: the euro sign's 3-byte unit passes through unescaped. -/
theorem claim_C3_witness :
    encode [0xE2, 0x82, 0xAC] =
      ([0xE2, 0x82, 0xAC] : List Nat).take 3 ++
        encode (([0xE2, 0x82, 0xAC] : List Nat).drop 3) :=
  claim_C3_passthrough 0xE2 [0x82, 0xAC] 0x20AC 3 (by decide) (by decide)
    (by decide) (by decide)

/-- C4: with compression requested, the payload that gets encoded is the
compressor's output on `B` (goembed.go lines 39–54), decompressing it yields
exactly `B`, and the emitted literal decodes back to that compressed payload.
The gzip compressor at `gzip.BestCompression` is Go standard-library code
outside this repository; it is held abstract here together with its
documented lossless round-trip contract, the hypothesis `hrt`. -/
theorem claim_C4_compression_roundtrip (compress decompress : List Nat → List Nat)
    (B : List Nat) (hrt : decompress (compress B) = B)
    (hB : ∀ b ∈ compress B, b < 256) :
    decompress (selectPayload compress true B) = B ∧
    goDecode (encode (selectPayload compress true B)) =
      some (selectPayload compress true B) := by
  constructor
  · simpa [selectPayload] using hrt
  · exact encode_roundTrip _ (by simpa [selectPayload] using hB)

/-- C4 witness: the statement instantiated with a concrete lossless
compressor/decompressor pair. -/
theorem claim_C4_witness :
    id (selectPayload id true [1, 2]) = [1, 2] ∧
    goDecode (encode (selectPayload id true [1, 2])) =
      some (selectPayload id true [1, 2]) :=
  claim_C4_compression_roundtrip id id [1, 2] rfl (by decide)

/-- C5 counterexample: in gzip mode the startup-time initializer (`func
init()`) is not printed last — it is part of the prologue template printed
before both variable declarations.  At a concrete configuration the actual
output differs from the order the claim states (initializer after the
declarations and the closing of the literal). -/
theorem claim_C5_counterexample :
    mainOutput [112] [118] true id [] ≠
      headerText [112] ++ importsText ++ uninitText [118] ++
        gzipOpenText [118] ++ encode (id []) ++ closeText ++
        initFuncText [118] := by
  decide

/-- C5 as amended: when `useCompression` is true the generator prints, in this
exact order: (a) the prologue block containing both the decompression imports
and the startup-time initializer that decompresses the suffixed variable into
`targetVariableName`, (b) the uninitialized declaration of
`targetVariableName`, (c) the declaration of `targetVariableName_gzip` bound
to the compressed literal, and (d) the closing of that literal; no separate
initializer is printed after the declarations. -/
theorem claim_C5_order (pkg v raw : List Nat) (compress : List Nat → List Nat) :
    mainOutput pkg v true compress raw =
      headerText pkg ++ (importsText ++ initFuncText v) ++ uninitText v ++
        gzipOpenText v ++ encode (compress raw) ++ closeText := by
  rw [mainOutput_gzip]
  rfl

/-- C6: contrary to the claim, a failing write to standard output during the
encoding phase does not abort the generator: `main` discards the error of
`io.Copy` (and of `fmt.Printf`/`fmt.Println`), so even when every stdout
write fails the run finishes with exit status 0. -/
theorem claim_C6_ignored_copy_error :
    (writerWrite failSink 0 (strBytes "hi")).2.2 = false ∧
    (mainRun failSink 0 (strBytes "p") (strBytes "v") false id
      (strBytes "hi")).2 = 0 := by
  decide

/-- C7: two runs with identical input bytes and identical configuration
(package name, variable name, gzip flag; the compressor is the fixed gzip
algorithm) produce byte-for-byte identical output. -/
theorem claim_C7_deterministic (pkg1 v1 raw1 pkg2 v2 raw2 : List Nat)
    (g1 g2 : Bool) (compress : List Nat → List Nat) (hp : pkg1 = pkg2)
    (hv : v1 = v2) (hg : g1 = g2) (hraw : raw1 = raw2) :
    mainOutput pkg1 v1 g1 compress raw1 = mainOutput pkg2 v2 g2 compress raw2 := by
  rw [hp, hv, hg, hraw]

/-- C7 witness: determinism at a concrete configuration and input. -/
theorem claim_C7_witness :
    mainOutput [112] [118] true id [104] = mainOutput [112] [118] true id [104] :=
  claim_C7_deterministic [112] [118] [104] [112] [118] [104] true true id
    rfl rfl rfl rfl

/-- C8: a NUL input byte is emitted as exactly the 4-character hex escape
`\x00` (bytes `92 120 48 48`); this holds for an input that is a single NUL
and for a NUL at any position (the encoder emits the escape and continues
with the rest). -/
theorem claim_C8_nul_escape :
    encode [0] = [92, 120, 48, 48] ∧
    ∀ rest : List Nat, encode (0 :: rest) = [92, 120, 48, 48] ++ encode rest :=
  ⟨rfl, fun rest => encode_cons_nul rest⟩

/-- C9: `writer.Write` over an arbitrary underlying writer: if every
underlying write succeeds it returns the full length of the slice and no
error; if an underlying write fails it returns the error together with a
count that still includes the byte or whole rune unit whose write failed
(the input is advanced past that unit before the loop exits). -/
theorem claim_C9_writerWrite {σ : Type} (wr : σ → List Nat → σ × Bool) (s0 : σ)
    (data : List Nat) :
    ((∀ st c, (wr st c).2 = true) →
      (writerWrite wr s0 data).2 = (data.length, true)) ∧
    (∀ s' n, writerWrite wr s0 data = (s', n, false) →
      ∃ u c rem s1, data = u ++ c ++ rem ∧ c ≠ [] ∧ n = (u ++ c).length ∧
        (wr s1 (encode c)).2 = false) := by
  constructor
  · intro hwr
    have h := writeLoopF_success wr hwr data.length s0 data le_rfl
    have h1 : (writeLoopF wr data.length s0 data).2.1 = [] := by rw [h]
    have h2 : (writeLoopF wr data.length s0 data).2.2 = true := by rw [h]
    simp [writerWrite, h1, h2]
  · intro s' n hww
    rcases hzz : writeLoopF wr data.length s0 data with ⟨zs, zrem, zok⟩
    have hfw : writerWrite wr s0 data = (zs, data.length - zrem.length, zok) := by
      unfold writerWrite
      rw [hzz]
    rw [hfw] at hww
    injection hww with ha hbc
    injection hbc with hbn hbf
    subst hbf
    obtain ⟨u, c, s1, hsplit, hc, hwf⟩ :=
      writeLoopF_fail wr data.length s0 data zs zrem le_rfl hzz
    refine ⟨u, c, zrem, s1, hsplit, hc, ?_, hwf⟩
    have hlen := congrArg List.length hsplit
    simp only [List.length_append] at hlen ⊢
    omega

/-- C9 witness: the success part on an all-succeeding sink, and the failure
part on an all-failing sink, where the count 1 includes the byte whose write
failed. -/
theorem claim_C9_witness :
    (writerWrite (fun (s : Nat) (_ : List Nat) => (s + 1, true)) 0
      [104, 0xC3, 0xA9]).2 = ([104, 0xC3, 0xA9].length, true) ∧
    (∃ u c rem s1, ([104] : List Nat) = u ++ c ++ rem ∧ c ≠ [] ∧
      (1 : Nat) = (u ++ c).length ∧ (failSink s1 (encode c)).2 = false) := by
  constructor
  · exact (claim_C9_writerWrite (fun (s : Nat) (_ : List Nat) => (s + 1, true)) 0
      [104, 0xC3, 0xA9]).1 (fun st c => rfl)
  · exact (claim_C9_writerWrite failSink 0 [104]).2 1 1 (by decide)

/-- C10: the encoder's output is a concatenation of chunks each of which is
either a complete escape sequence starting with a backslash (`\\`, `\"`,
`\n`, `\xHH`) or backslash-free, so every backslash in the output starts an
escape sequence; in particular an input backslash is always emitted doubled,
never as a single raw backslash. -/
theorem claim_C10_backslashes (B : List Nat) (hB : ∀ b ∈ B, b < 256) :
    (∃ ts : List (List Nat), encode B = ts.flatten ∧
      ∀ t ∈ ts, isEscTok t ∨ 92 ∉ t) ∧
    ∀ l : List Nat, encode (92 :: l) = 92 :: 92 :: encode l := by
  constructor
  · obtain ⟨ts, hts, hj⟩ := encode_tokens B hB
    refine ⟨ts, hj, fun t ht => ?_⟩
    rcases hts t ht with hesc | hraw
    · exact Or.inl hesc
    · right
      intro hmem
      exact (isRawTok_bytes hraw 92 hmem).2.2.2 rfl
  · exact encode_cons_backslash

/-- C10 witness: the structure at a concrete input containing a backslash. -/
theorem claim_C10_witness :
    (∃ ts : List (List Nat), encode [92, 65] = ts.flatten ∧
      ∀ t ∈ ts, isEscTok t ∨ 92 ∉ t) ∧
    encode (92 :: [65]) = 92 :: 92 :: encode [65] :=
  ⟨(claim_C10_backslashes [92, 65] (by decide)).1,
    (claim_C10_backslashes [92, 65] (by decide)).2 [65]⟩
